import Mathlib

/-!
# Verification of the LoopBack life-cycle observer orchestration engine

Shallow embedding of `src/packages/core/src/lifecycle-registry.ts`
(`LifeCycleObserverRegistry`): observer-binding discovery, grouping and
ordering of observers, and the six-phase start/stop notification protocol.

Conventions of the embedding:
* A `Binding` keeps the fields of `@loopback/context`'s `Binding` that the
  registry inspects: `key`, `type`, `scope`, and the tag map (an association
  list from tag name to tag value; JS object keys are unique, insertion order
  is irrelevant to `tagMap[name]` lookup).
* JS `Array.prototype.sort` with a comparator (ES2019: stable) is modelled by
  a stable insertion sort on the integer sort key
  `groupsByOrder.indexOf(g.group)`; JS `indexOf` returns `-1` for a missing
  element, modelled by `jsIndexOf`.
* The asynchronous notification code is modelled twice, faithfully to the two
  branches of `notifyObserverGroup`:
  - serial mode (`options.parallel === false`) as a deterministic executor
    returning `Except String (List TraceEv)` — a hook rejection becomes
    `Except.error`, and the trace records every `ctx.get` resolution and
    every actual hook invocation in execution order;
  - parallel mode (`options.parallel === true`, the default) as an inductive
    relation: within one group the per-member event sequences may interleave
    arbitrarily (an over-approximation of the event-loop schedules), and
    `await Promise.all(notifiers)` is the barrier that ends the group.
-/

/-- `BindingType` of `@loopback/context` (the registry only distinguishes
`CONSTANT` from the rest). -/
inductive BindingType where
  | constant
  | dynamicValue
  | toClass
  | provider
  deriving DecidableEq, Repr

/-- `BindingScope` of `@loopback/context`. -/
inductive BindingScope where
  | transient
  | contextScope
  | singleton
  deriving DecidableEq, Repr

/-- The slice of a `@loopback/context` `Binding` that
`LifeCycleObserverRegistry` inspects. `tagMap` maps tag names to (string)
tag values. -/
structure Binding where
  key : String
  type : BindingType
  scope : BindingScope
  tagMap : List (String × String)
  deriving DecidableEq, Repr

/-- Tag names from `CoreBindings.Tags` (`keys.ts`). -/
def CoreTagLifeCycleObserver : String := "lifeCycleObserver"

/-- Tag name `CoreBindings.Tags.SERVER`. -/
def CoreTagServer : String := "server"

/-- Tag name `CoreBindings.Tags.LIFE_CYCLE_OBSERVER_GROUP`. -/
def CoreTagLifeCycleObserverGroup : String := "lifeCycleObserverGroup"

/-- JS truthiness of an optional string tag value (`undefined` and `''` are
falsy). -/
def truthy : Option String → Bool
  | none => false
  | some v => v ≠ ""

/-- The predicate of `findObserverBindings`: a constant or singleton binding
tagged with `lifeCycleObserver` (checked with `!= null`) or with a truthy
`server` tag. -/
def isObserverBinding (b : Binding) : Bool :=
  (b.type = BindingType.constant || b.scope = BindingScope.singleton) &&
    ((b.tagMap.lookup CoreTagLifeCycleObserver).isSome ||
      truthy (b.tagMap.lookup CoreTagServer))

/-- JS `Array.prototype.indexOf`: the index of the first occurrence, or `-1`
when the element is absent. -/
def jsIndexOf (l : List String) (s : String) : Int :=
  match l with
  | [] => -1
  | a :: rest =>
    if a = s then 0
    else if jsIndexOf rest s = -1 then -1 else jsIndexOf rest s + 1

/-- `getObserverGroup`: the explicit `lifeCycleObserverGroup` tag value if
truthy; else the first name in `groupsByOrder` carried as a boolean-style tag
(`tagMap[g] === g`); else `''`. -/
def getObserverGroup (groupsByOrder : List String) (b : Binding) : String :=
  let g := (b.tagMap.lookup CoreTagLifeCycleObserverGroup).getD ""
  if g = "" then
    match groupsByOrder.find? (fun gname => b.tagMap.lookup gname = some gname) with
    | some gname => gname
    | none => ""
  else g

/-- One entry of the `groupMap` built by `sortObserverBindingsByGroup`:
a group label with the bindings collected for it so far. -/
abbrev GroupEntry := String × List Binding

/-- Insert a binding into the group map: append to the existing bucket of its
group, or append a new bucket at the end (JS `Map` preserves insertion order
of keys). -/
def addBindingToGroupMap (m : List GroupEntry) (grp : String) (b : Binding) :
    List GroupEntry :=
  match m with
  | [] => [(grp, [b])]
  | (k, l) :: rest =>
    if k = grp then (k, l ++ [b]) :: rest
    else (k, l) :: addBindingToGroupMap rest grp b

/-- The `groupMap` loop of `sortObserverBindingsByGroup`: bucket the bindings
by their observer group, first-seen group order, insertion order inside each
bucket. -/
def buildGroupMap (groupsByOrder : List String) (bindings : List Binding) :
    List GroupEntry :=
  bindings.foldl (fun m b => addBindingToGroupMap m (getObserverGroup groupsByOrder b) b) []

/-- `LifeCycleObserverGroup`: a group label together with its bindings. -/
structure LifeCycleObserverGroup where
  group : String
  bindings : List Binding
  deriving DecidableEq, Repr

/-- Insert `a` into `l` before the first element whose key is `≥ key a`
(keeps earlier-inserted equal-key elements earlier). -/
def insertByKey (key : α → Int) (a : α) : List α → List α
  | [] => [a]
  | b :: bs => if key a ≤ key b then a :: b :: bs else b :: insertByKey key a bs

/-- Stable sort by an integer key: the model of ES2019
`Array.prototype.sort(comparator)` for the consistent comparator
`key g1 - key g2`. -/
def stableSortByKey (key : α → Int) (l : List α) : List α :=
  l.foldr (insertByKey key) []

/-- `sortObserverBindingsByGroup`: bucket the bindings by group, then sort the
groups by `groupsByOrder.indexOf(group)` (stably; absent groups have index
`-1`). -/
def sortObserverBindingsByGroup (groupsByOrder : List String)
    (bindings : List Binding) : List LifeCycleObserverGroup :=
  stableSortByKey (fun g => jsIndexOf groupsByOrder g.group)
    ((buildGroupMap groupsByOrder bindings).map fun e => ⟨e.1, e.2⟩)

/-- A life cycle observer instance: its identity (used by the trace of its
hooks) and, for each event name, `none` when the hook is not implemented,
`some none` when it is implemented and fulfills, `some (some e)` when it is
implemented and rejects with `e`. -/
structure Observer where
  name : String
  hooks : String → Option (Option String)

/-- The registry context as the core consumes it: the bound entries in
registration order (`ctx.find` filters them in order) and instance
resolution by key (`ctx.get`). -/
structure TestCtx where
  bindings : List Binding
  resolve : String → Observer

/-- `findObserverBindings`: `ctx.find` with the observer predicate. -/
def findObserverBindings (ctx : TestCtx) : List Binding :=
  ctx.bindings.filter isObserverBinding

/-- `getObserverGroupsByOrder`: discover the observer bindings, then group and
sort them. -/
def getObserverGroupsByOrder (ctx : TestCtx) (groupsByOrder : List String) :
    List LifeCycleObserverGroup :=
  sortObserverBindingsByGroup groupsByOrder (findObserverBindings ctx)

/-- An observable event of a notification pass: a `ctx.get` resolution of a
binding key, or an actual hook invocation (observer name, event name). -/
inductive TraceEv where
  | resolve (key : String)
  | hook (name : String) (event : String)
  deriving DecidableEq, Repr

/-- `invokeObserver`: invoke the hook when the observer implements the event,
otherwise do nothing (`typeof observer[event] === 'function'` fails). -/
def invokeObserver (o : Observer) (event : String) :
    Except String (List TraceEv) :=
  match o.hooks event with
  | none => Except.ok []
  | some none => Except.ok [TraceEv.hook o.name event]
  | some (some e) => Except.error e

/-- The body of `notifyObserver` inside `notifyObserverGroup`: resolve the
instance from the context, then invoke the hook; a rejection propagates. -/
def notifyObserver (ctx : TestCtx) (b : Binding) (event : String) :
    Except String (List TraceEv) :=
  match invokeObserver (ctx.resolve b.key) event with
  | Except.ok t => Except.ok (TraceEv.resolve b.key :: t)
  | Except.error e => Except.error e

/-- Serial branch of `notifyObserverGroup`: await each member before starting
the next, in member order; the first rejection aborts the loop. -/
def notifyBindingsSerial (ctx : TestCtx) (bs : List Binding) (event : String) :
    Except String (List TraceEv) :=
  match bs with
  | [] => Except.ok []
  | b :: rest =>
    match notifyObserver ctx b event with
    | Except.error e => Except.error e
    | Except.ok t =>
      match notifyBindingsSerial ctx rest event with
      | Except.error e => Except.error e
      | Except.ok ts => Except.ok (t ++ ts)

/-- Inner loop of `notifyGroups` for one event: notify each group in order
(serial mode). -/
def notifyGroupsOneEventSerial (ctx : TestCtx)
    (groups : List LifeCycleObserverGroup) (event : String) :
    Except String (List TraceEv) :=
  match groups with
  | [] => Except.ok []
  | g :: gs =>
    match notifyBindingsSerial ctx g.bindings event with
    | Except.error e => Except.error e
    | Except.ok t =>
      match notifyGroupsOneEventSerial ctx gs event with
      | Except.error e => Except.error e
      | Except.ok ts => Except.ok (t ++ ts)

/-- `notifyGroups` (serial mode): for each event in order, notify every group
of that event before moving to the next event. -/
def notifyGroupsSerial (ctx : TestCtx) (events : List String)
    (groups : List LifeCycleObserverGroup) : Except String (List TraceEv) :=
  match events with
  | [] => Except.ok []
  | ev :: evs =>
    match notifyGroupsOneEventSerial ctx groups ev with
    | Except.error e => Except.error e
    | Except.ok t =>
      match notifyGroupsSerial ctx evs groups with
      | Except.error e => Except.error e
      | Except.ok ts => Except.ok (t ++ ts)

/-- The event triad of `start()`. -/
def startEvents : List String := ["preStart", "start", "postStart"]

/-- The event triad of `stop()`. -/
def stopEvents : List String := ["preStop", "stop", "postStop"]

/-- `start()` (serial mode): compute the groups from the current order and run
the start triad over them. -/
def startSerial (ctx : TestCtx) (groupsByOrder : List String) :
    Except String (List TraceEv) :=
  notifyGroupsSerial ctx startEvents (getObserverGroupsByOrder ctx groupsByOrder)

/-- `stop()` (serial mode): compute the groups from the current order, reverse
the group sequence, and run the stop triad over them. -/
def stopSerial (ctx : TestCtx) (groupsByOrder : List String) :
    Except String (List TraceEv) :=
  notifyGroupsSerial ctx stopEvents
    (getObserverGroupsByOrder ctx groupsByOrder).reverse

/-! ## Parallel mode

With `options.parallel` (the default), `notifyObserverGroup` starts one
asynchronous `notifyObserver` per member without awaiting between them and
then awaits `Promise.all(notifiers)`.  The observable traces of one group are
modelled as the interleavings of the members' event sequences, and
`Promise.all` rejects the group with the error of a failing member. -/

/-- `Interleaving ls t`: `t` is obtained by interleaving the sequences in
`ls`, preserving the internal order of each sequence. -/
inductive Interleaving : List (List α) → List α → Prop where
  | nil (ls : List (List α)) (h : ∀ l ∈ ls, l = []) : Interleaving ls []
  | cons (pre : List (List α)) (x : α) (l : List α) (post : List (List α))
      (t : List α) (h : Interleaving (pre ++ l :: post) t) :
      Interleaving (pre ++ (x :: l) :: post) (x :: t)

/-- The success trace of one member's `notifyObserver` invocation (only used
when the invocation fulfills). -/
def memberSeq (ctx : TestCtx) (b : Binding) (event : String) : List TraceEv :=
  match notifyObserver ctx b event with
  | Except.ok t => t
  | Except.error _ => []

/-- Parallel `notifyObserverGroup`: fan out all members, then the
`Promise.all` barrier.  The group fulfills with some interleaving of all
members' sequences iff every member fulfills; it rejects with the error of
any rejecting member. -/
inductive NotifyGroupPar (ctx : TestCtx) (g : LifeCycleObserverGroup)
    (event : String) : Except String (List TraceEv) → Prop where
  | ok (t : List TraceEv)
      (hok : ∀ b ∈ g.bindings, ∃ s, notifyObserver ctx b event = Except.ok s)
      (hil : Interleaving (g.bindings.map fun b => memberSeq ctx b event) t) :
      NotifyGroupPar ctx g event (Except.ok t)
  | err (b : Binding) (e : String) (hb : b ∈ g.bindings)
      (he : notifyObserver ctx b event = Except.error e) :
      NotifyGroupPar ctx g event (Except.error e)

/-- Inner loop of `notifyGroups` for one event, parallel mode: groups are
awaited one after the other. -/
inductive NotifyEventPar (ctx : TestCtx) (event : String) :
    List LifeCycleObserverGroup → Except String (List TraceEv) → Prop where
  | nil : NotifyEventPar ctx event [] (Except.ok [])
  | consOk (g : LifeCycleObserverGroup) (gs : List LifeCycleObserverGroup)
      (t ts : List TraceEv) (hg : NotifyGroupPar ctx g event (Except.ok t))
      (hgs : NotifyEventPar ctx event gs (Except.ok ts)) :
      NotifyEventPar ctx event (g :: gs) (Except.ok (t ++ ts))
  | errHead (g : LifeCycleObserverGroup) (gs : List LifeCycleObserverGroup)
      (e : String) (hg : NotifyGroupPar ctx g event (Except.error e)) :
      NotifyEventPar ctx event (g :: gs) (Except.error e)
  | errTail (g : LifeCycleObserverGroup) (gs : List LifeCycleObserverGroup)
      (t : List TraceEv) (e : String)
      (hg : NotifyGroupPar ctx g event (Except.ok t))
      (hgs : NotifyEventPar ctx event gs (Except.error e)) :
      NotifyEventPar ctx event (g :: gs) (Except.error e)

/-- `notifyGroups`, parallel mode: the events run strictly one after the
other; each event's pass over all groups completes before the next event. -/
inductive NotifyGroupsPar (ctx : TestCtx) :
    List String → List LifeCycleObserverGroup → Except String (List TraceEv) →
    Prop where
  | nil (groups : List LifeCycleObserverGroup) :
      NotifyGroupsPar ctx [] groups (Except.ok [])
  | consOk (ev : String) (evs : List String)
      (groups : List LifeCycleObserverGroup) (t ts : List TraceEv)
      (hev : NotifyEventPar ctx ev groups (Except.ok t))
      (hevs : NotifyGroupsPar ctx evs groups (Except.ok ts)) :
      NotifyGroupsPar ctx (ev :: evs) groups (Except.ok (t ++ ts))
  | errHead (ev : String) (evs : List String)
      (groups : List LifeCycleObserverGroup) (e : String)
      (hev : NotifyEventPar ctx ev groups (Except.error e)) :
      NotifyGroupsPar ctx (ev :: evs) groups (Except.error e)
  | errTail (ev : String) (evs : List String)
      (groups : List LifeCycleObserverGroup) (t : List TraceEv) (e : String)
      (hev : NotifyEventPar ctx ev groups (Except.ok t))
      (hevs : NotifyGroupsPar ctx evs groups (Except.error e)) :
      NotifyGroupsPar ctx (ev :: evs) groups (Except.error e)

/-- `start()` in parallel mode, as a relation on results. -/
def StartPar (ctx : TestCtx) (groupsByOrder : List String)
    (r : Except String (List TraceEv)) : Prop :=
  NotifyGroupsPar ctx startEvents (getObserverGroupsByOrder ctx groupsByOrder) r

/-- `stop()` in parallel mode, as a relation on results. -/
def StopPar (ctx : TestCtx) (groupsByOrder : List String)
    (r : Except String (List TraceEv)) : Prop :=
  NotifyGroupsPar ctx stopEvents
    (getObserverGroupsByOrder ctx groupsByOrder).reverse r

/-- The phase carried by a trace event (`none` for a resolution event). -/
def TraceEv.phase : TraceEv → Option String
  | TraceEv.resolve _ => none
  | TraceEv.hook _ ev => some ev

/-- Projection of a trace to the observed hook invocations, as
(event, observer name) pairs — the `events` array of the repository's own
lifecycle tests. -/
def hookTrace (t : List TraceEv) : List (String × String) :=
  t.filterMap fun e =>
    match e with
    | TraceEv.hook n ev => some (ev, n)
    | TraceEv.resolve _ => none

/-! ## Concrete fixtures -/

/-- An observer implementing all six hooks, all fulfilling. -/
def okObserver (n : String) : Observer :=
  ⟨n, fun ev => if ev ∈ ["preStart", "start", "postStart", "preStop", "stop", "postStop"]
      then some none else none⟩

/-- A constant binding tagged as a life-cycle observer with an explicit
group. -/
def observerBinding (k g : String) : Binding :=
  ⟨k, BindingType.constant, BindingScope.transient,
    [(CoreTagLifeCycleObserver, "lifeCycleObserver"),
     (CoreTagLifeCycleObserverGroup, g)]⟩

/-- Observer A in group `g1`. -/
def bindingA : Binding := observerBinding "A" "g1"

/-- Observer B in group `g2`. -/
def bindingB : Binding := observerBinding "B" "g2"

/-- The registry of the P3 scenario: observers A (g1) and B (g2), all six
hooks implemented. -/
def ctxAB : TestCtx := ⟨[bindingA, bindingB], fun k => okObserver k⟩

/-- A singleton binding carrying only a truthy `server` tag. -/
def serverBinding : Binding :=
  ⟨"srv", BindingType.toClass, BindingScope.singleton, [(CoreTagServer, "server")]⟩

/-- A binding whose explicit group `a` is absent from the default order
`["server"]`. -/
def ungroupedBinding : Binding := observerBinding "a-obs" "a"

/-- Registry with one observer of an unconfigured group and one server. -/
def ctxC1 : TestCtx := ⟨[ungroupedBinding, serverBinding], fun k => okObserver k⟩

/-- A single-observer registry (used to count resolutions per pass). -/
def ctxA : TestCtx := ⟨[bindingA], fun k => okObserver k⟩

/-- An observer whose `start` hook rejects with `"boom"`; the other five
hooks fulfill. -/
def failingObserver : Observer :=
  ⟨"F", fun ev =>
    if ev = "start" then some (some "boom")
    else if ev ∈ ["preStart", "postStart", "preStop", "stop", "postStop"]
      then some none else none⟩

/-- Registry whose only observer rejects on `start`. -/
def ctxFail : TestCtx :=
  ⟨[observerBinding "F" "g1"], fun _ => failingObserver⟩

/-- An observer implementing only `start` and `stop` (the P5 scenario). -/
def startStopOnlyObserver (n : String) : Observer :=
  ⟨n, fun ev => if ev = "start" || ev = "stop" then some none else none⟩

/-- A transient class binding tagged as an observer: it fails the
constant-or-singleton test of `findObserverBindings`. -/
def transientBinding : Binding :=
  ⟨"T", BindingType.toClass, BindingScope.transient,
    [(CoreTagLifeCycleObserver, "lifeCycleObserver")]⟩

/-- Registry mixing a discoverable observer and a transient one. -/
def ctxC10 : TestCtx := ⟨[bindingA, transientBinding], fun k => okObserver k⟩

/-- Same bindings as `ctxAB` but a different resolver (group computation must
not depend on it). -/
def ctxABAlt : TestCtx := ⟨[bindingA, bindingB], fun k => startStopOnlyObserver k⟩

/-- A second observer in group `g1` (two members in one parallel group). -/
def bindingA2 : Binding := observerBinding "A2" "g1"

/-- Registry with two observers in the same group. -/
def ctxPair : TestCtx := ⟨[bindingA, bindingA2], fun k => okObserver k⟩

/-- The unique parallel start trace of `ctxAB` under order `[g1, g2]`. -/
def startTraceAB : List TraceEv :=
  [TraceEv.resolve "A", TraceEv.hook "A" "preStart",
   TraceEv.resolve "B", TraceEv.hook "B" "preStart",
   TraceEv.resolve "A", TraceEv.hook "A" "start",
   TraceEv.resolve "B", TraceEv.hook "B" "start",
   TraceEv.resolve "A", TraceEv.hook "A" "postStart",
   TraceEv.resolve "B", TraceEv.hook "B" "postStart"]

/-- The unique parallel stop trace of `ctxAB` under order `[g1, g2]`. -/
def stopTraceAB : List TraceEv :=
  [TraceEv.resolve "B", TraceEv.hook "B" "preStop",
   TraceEv.resolve "A", TraceEv.hook "A" "preStop",
   TraceEv.resolve "B", TraceEv.hook "B" "stop",
   TraceEv.resolve "A", TraceEv.hook "A" "stop",
   TraceEv.resolve "B", TraceEv.hook "B" "postStop",
   TraceEv.resolve "A", TraceEv.hook "A" "postStop"]

/-! ## Helper lemmas: the stable sort model -/

theorem insertByKey_perm (key : α → Int) (a : α) (l : List α) :
    (insertByKey key a l).Perm (a :: l) := by
  induction l with
  | nil => simp [insertByKey]
  | cons b bs ih =>
    simp only [insertByKey]
    split
    · exact List.Perm.refl _
    · exact (ih.cons b).trans (List.Perm.swap a b bs)

theorem stableSortByKey_perm (key : α → Int) (l : List α) :
    (stableSortByKey key l).Perm l := by
  induction l with
  | nil => rfl
  | cons a l ih =>
    exact (insertByKey_perm key a _).trans (ih.cons a)

theorem insertByKey_pairwise (key : α → Int) (a : α) {l : List α}
    (h : l.Pairwise (fun x y => key x ≤ key y)) :
    (insertByKey key a l).Pairwise (fun x y => key x ≤ key y) := by
  induction l with
  | nil => simp [insertByKey]
  | cons b bs ih =>
    rcases List.pairwise_cons.mp h with ⟨hb, hbs⟩
    simp only [insertByKey]
    split
    · next hle =>
      refine List.pairwise_cons.mpr ⟨?_, h⟩
      intro y hy
      rcases List.mem_cons.mp hy with rfl | hy'
      · exact hle
      · exact le_trans hle (hb y hy')
    · next hgt =>
      refine List.pairwise_cons.mpr ⟨?_, ih hbs⟩
      intro y hy
      have hmem := (insertByKey_perm key a bs).mem_iff.mp hy
      rcases List.mem_cons.mp hmem with rfl | hy'
      · omega
      · exact hb y hy'

theorem stableSortByKey_pairwise (key : α → Int) (l : List α) :
    (stableSortByKey key l).Pairwise (fun x y => key x ≤ key y) := by
  induction l with
  | nil => simp [stableSortByKey]
  | cons a l ih => exact insertByKey_pairwise key a ih

theorem insertByKey_filter_eq (key : α → Int) (c : Int) (a : α) (l : List α) :
    (insertByKey key a l).filter (fun x => key x == c) =
      if key a = c then a :: l.filter (fun x => key x == c)
      else l.filter (fun x => key x == c) := by
  induction l with
  | nil =>
    by_cases h : key a = c <;>
      simp [insertByKey, List.filter_cons, h, beq_iff_eq]
  | cons b bs ih =>
    simp only [insertByKey]
    split
    · by_cases h : key a = c <;> simp [List.filter_cons, h]
    · next hgt =>
      by_cases h : key a = c
      · have hb : ¬(key b = c) := by omega
        simp [List.filter_cons, ih, h, hb]
      · simp only [List.filter_cons, ih, if_neg h]

theorem stableSortByKey_filter (key : α → Int) (c : Int) (l : List α) :
    (stableSortByKey key l).filter (fun x => key x == c) =
      l.filter (fun x => key x == c) := by
  induction l with
  | nil => rfl
  | cons a l ih =>
    have hstep : stableSortByKey key (a :: l) =
        insertByKey key a (stableSortByKey key l) := rfl
    rw [hstep, insertByKey_filter_eq]
    by_cases h : key a = c <;> simp [List.filter_cons, h, ih]

/-! ## Helper lemmas: the group map -/

theorem addBindingToGroupMap_flatten (m : List GroupEntry) (grp : String)
    (b : Binding) :
    ((addBindingToGroupMap m grp b).map Prod.snd).flatten.Perm
      ((m.map Prod.snd).flatten ++ [b]) := by
  induction m with
  | nil => simp [addBindingToGroupMap]
  | cons e rest ih =>
    obtain ⟨k, l⟩ := e
    simp only [addBindingToGroupMap]
    split
    · simp only [List.map_cons, List.flatten_cons]
      rw [List.append_assoc l [b], List.append_assoc l]
      exact List.Perm.append_left l List.perm_append_comm
    · simp only [List.map_cons, List.flatten_cons]
      rw [List.append_assoc l]
      exact List.Perm.append_left l ih

theorem buildGroupMap_go_flatten (order : List String) (bs : List Binding) :
    ∀ m : List GroupEntry,
      (((bs.foldl
          (fun m b => addBindingToGroupMap m (getObserverGroup order b) b)
          m).map Prod.snd).flatten).Perm ((m.map Prod.snd).flatten ++ bs) := by
  induction bs with
  | nil => intro m; simp
  | cons b rest ih =>
    intro m
    simp only [List.foldl_cons]
    refine (ih _).trans ?_
    refine ((addBindingToGroupMap_flatten m _ b).append_right rest).trans ?_
    rw [List.append_assoc]
    exact List.Perm.refl _

theorem buildGroupMap_flatten_perm (order : List String) (bs : List Binding) :
    ((buildGroupMap order bs).map Prod.snd).flatten.Perm bs := by
  simpa [buildGroupMap] using buildGroupMap_go_flatten order bs []

theorem addBindingToGroupMap_sublist {m : List GroupEntry} {p : List Binding}
    (hm : ∀ e ∈ m, e.2.Sublist p) (grp : String) (b : Binding) :
    ∀ e ∈ addBindingToGroupMap m grp b, e.2.Sublist (p ++ [b]) := by
  induction m with
  | nil =>
    intro e he
    simp only [addBindingToGroupMap, List.mem_singleton] at he
    subst he
    exact List.sublist_append_right p [b]
  | cons e0 rest ih =>
    obtain ⟨k, l⟩ := e0
    intro e he
    have hl : l.Sublist p := hm (k, l) (by simp)
    have hrest : ∀ e ∈ rest, e.2.Sublist p := fun e' he' => hm e' (by simp [he'])
    simp only [addBindingToGroupMap] at he
    split at he
    · rcases List.mem_cons.mp he with rfl | he'
      · exact hl.append (List.Sublist.refl [b])
      · exact (hrest e he').trans (List.sublist_append_left p [b])
    · rcases List.mem_cons.mp he with rfl | he'
      · exact hl.trans (List.sublist_append_left p [b])
      · exact ih hrest e he'

theorem buildGroupMap_go_sublist (order : List String) (bs : List Binding) :
    ∀ (m : List GroupEntry) (p : List Binding), (∀ e ∈ m, e.2.Sublist p) →
      ∀ e ∈ bs.foldl
          (fun m b => addBindingToGroupMap m (getObserverGroup order b) b) m,
        e.2.Sublist (p ++ bs) := by
  induction bs with
  | nil => intro m p hm e he; simpa using hm e he
  | cons b rest ih =>
    intro m p hm e he
    simp only [List.foldl_cons] at he
    have step := addBindingToGroupMap_sublist hm (getObserverGroup order b) b
    have := ih _ (p ++ [b]) step e he
    simpa [List.append_assoc] using this

theorem buildGroupMap_sublist (order : List String) (bs : List Binding) :
    ∀ e ∈ buildGroupMap order bs, e.2.Sublist bs := by
  have h := buildGroupMap_go_sublist order bs [] [] (by simp)
  simpa [buildGroupMap] using h

/-! ## Helper lemmas: the sorted groups as a partition -/

theorem sortObserver_flatten_perm (order : List String) (bs : List Binding) :
    ((sortObserverBindingsByGroup order bs).map (·.bindings)).flatten.Perm
      bs := by
  have hperm :=
    stableSortByKey_perm (fun g : LifeCycleObserverGroup => jsIndexOf order g.group)
      ((buildGroupMap order bs).map fun e => (⟨e.1, e.2⟩ : LifeCycleObserverGroup))
  have h2 := (hperm.map (·.bindings)).flatten
  have h3 : (((buildGroupMap order bs).map
        fun e => (⟨e.1, e.2⟩ : LifeCycleObserverGroup)).map (·.bindings)) =
      (buildGroupMap order bs).map Prod.snd := by
    simp [List.map_map]
  rw [h3] at h2
  exact h2.trans (buildGroupMap_flatten_perm order bs)

theorem sortObserver_mem_sublist (order : List String) (bs : List Binding) :
    ∀ g ∈ sortObserverBindingsByGroup order bs, g.bindings.Sublist bs := by
  intro g hg
  have hperm :=
    stableSortByKey_perm (fun g : LifeCycleObserverGroup => jsIndexOf order g.group)
      ((buildGroupMap order bs).map fun e => (⟨e.1, e.2⟩ : LifeCycleObserverGroup))
  have hmem := hperm.mem_iff.mp hg
  rcases List.mem_map.mp hmem with ⟨e, he, rfl⟩
  exact buildGroupMap_sublist order bs e he

/-! ## Helper lemmas: `jsIndexOf` -/

theorem jsIndexOf_ge (l : List String) (s : String) : -1 ≤ jsIndexOf l s := by
  induction l with
  | nil => simp [jsIndexOf]
  | cons a rest ih =>
    simp only [jsIndexOf]
    split
    · omega
    · split <;> omega

theorem jsIndexOf_eq_neg_one_iff (l : List String) (s : String) :
    jsIndexOf l s = -1 ↔ s ∉ l := by
  induction l with
  | nil => simp [jsIndexOf]
  | cons a rest ih =>
    simp only [jsIndexOf, List.mem_cons]
    by_cases h : a = s
    · simp [h]
    · have hge := jsIndexOf_ge rest s
      by_cases hr : jsIndexOf rest s = -1
      · simp only [if_neg h, if_pos hr]
        constructor
        · intro _ hcon
          rcases hcon with rfl | hmem
          · exact h rfl
          · exact (ih.mp hr) hmem
        · intro _; trivial
      · simp only [if_neg h, if_neg hr]
        constructor
        · intro hcon; omega
        · intro hcon
          exfalso
          exact (hcon (Or.inr (by
            by_contra hc
            exact hr (ih.mpr hc))))

theorem jsIndexOf_nonneg_of_mem {l : List String} {s : String} (h : s ∈ l) :
    0 ≤ jsIndexOf l s := by
  have h1 := jsIndexOf_ge l s
  have h2 : jsIndexOf l s ≠ -1 := fun hc => (jsIndexOf_eq_neg_one_iff l s).mp hc h
  omega

/-! ## Helper lemmas: the serial executor -/

theorem notifyObserver_ok_count (ctx : TestCtx) (b : Binding) (event : String)
    (t : List TraceEv) (k : String)
    (h : notifyObserver ctx b event = Except.ok t) :
    t.count (TraceEv.resolve k) = if b.key = k then 1 else 0 := by
  unfold notifyObserver invokeObserver at h
  cases hh : (ctx.resolve b.key).hooks event with
  | none =>
    rw [hh] at h
    injection h with h
    subst h
    by_cases hk : b.key = k <;> simp [List.count_cons, beq_iff_eq, hk]
  | some r =>
    cases r with
    | none =>
      rw [hh] at h
      injection h with h
      subst h
      by_cases hk : b.key = k <;>
        simp [List.count_cons, beq_iff_eq, hk]
    | some e =>
      rw [hh] at h
      cases h

theorem notifyBindingsSerial_ok_count (ctx : TestCtx) (bs : List Binding)
    (event : String) (t : List TraceEv) (k : String)
    (h : notifyBindingsSerial ctx bs event = Except.ok t) :
    t.count (TraceEv.resolve k) = bs.countP (fun b => b.key == k) := by
  induction bs generalizing t with
  | nil =>
    simp only [notifyBindingsSerial] at h
    injection h with h
    subst h
    simp
  | cons b rest ih =>
    simp only [notifyBindingsSerial] at h
    cases h1 : notifyObserver ctx b event with
    | error e => rw [h1] at h; cases h
    | ok t1 =>
      rw [h1] at h
      cases h2 : notifyBindingsSerial ctx rest event with
      | error e => rw [h2] at h; cases h
      | ok t2 =>
        rw [h2] at h
        injection h with h
        subst h
        rw [List.count_append, notifyObserver_ok_count ctx b event t1 k h1,
          ih t2 h2, List.countP_cons]
        by_cases hk : b.key = k
        all_goals simp [hk]
        all_goals omega

theorem notifyGroupsOneEventSerial_ok_count (ctx : TestCtx)
    (groups : List LifeCycleObserverGroup) (event : String) (t : List TraceEv)
    (k : String)
    (h : notifyGroupsOneEventSerial ctx groups event = Except.ok t) :
    t.count (TraceEv.resolve k) =
      ((groups.map (·.bindings)).flatten).countP (fun b => b.key == k) := by
  induction groups generalizing t with
  | nil =>
    simp only [notifyGroupsOneEventSerial] at h
    injection h with h
    subst h
    simp
  | cons g gs ih =>
    simp only [notifyGroupsOneEventSerial] at h
    cases h1 : notifyBindingsSerial ctx g.bindings event with
    | error e => rw [h1] at h; cases h
    | ok t1 =>
      rw [h1] at h
      cases h2 : notifyGroupsOneEventSerial ctx gs event with
      | error e => rw [h2] at h; cases h
      | ok t2 =>
        rw [h2] at h
        injection h with h
        subst h
        rw [List.count_append, notifyBindingsSerial_ok_count ctx _ event t1 k h1,
          ih t2 h2]
        simp [List.countP_append]

theorem notifyGroupsSerial_ok_count (ctx : TestCtx) (events : List String)
    (groups : List LifeCycleObserverGroup) (t : List TraceEv) (k : String)
    (h : notifyGroupsSerial ctx events groups = Except.ok t) :
    t.count (TraceEv.resolve k) =
      events.length *
        ((groups.map (·.bindings)).flatten).countP (fun b => b.key == k) := by
  induction events generalizing t with
  | nil =>
    simp only [notifyGroupsSerial] at h
    injection h with h
    subst h
    simp
  | cons ev evs ih =>
    simp only [notifyGroupsSerial] at h
    cases h1 : notifyGroupsOneEventSerial ctx groups ev with
    | error e => rw [h1] at h; cases h
    | ok t1 =>
      rw [h1] at h
      cases h2 : notifyGroupsSerial ctx evs groups with
      | error e => rw [h2] at h; cases h
      | ok t2 =>
        rw [h2] at h
        injection h with h
        subst h
        rw [List.count_append,
          notifyGroupsOneEventSerial_ok_count ctx groups ev t1 k h1, ih t2 h2,
          List.length_cons]
        ring

theorem notifyBindingsSerial_ok_no_error (ctx : TestCtx) (bs : List Binding)
    (event : String) (t : List TraceEv)
    (h : notifyBindingsSerial ctx bs event = Except.ok t) :
    ∀ b ∈ bs, ∀ e, notifyObserver ctx b event ≠ Except.error e := by
  induction bs generalizing t with
  | nil => intro b hb; cases hb
  | cons b0 rest ih =>
    intro b hb e hcon
    simp only [notifyBindingsSerial] at h
    cases h1 : notifyObserver ctx b0 event with
    | error e0 => rw [h1] at h; cases h
    | ok t1 =>
      rw [h1] at h
      cases h2 : notifyBindingsSerial ctx rest event with
      | error e0 => rw [h2] at h; cases h
      | ok t2 =>
        rcases List.mem_cons.mp hb with rfl | hb'
        · rw [h1] at hcon; cases hcon
        · exact ih t2 h2 b hb' e hcon

theorem notifyGroupsOneEventSerial_ok_no_error (ctx : TestCtx)
    (groups : List LifeCycleObserverGroup) (event : String) (t : List TraceEv)
    (h : notifyGroupsOneEventSerial ctx groups event = Except.ok t) :
    ∀ g ∈ groups, ∀ b ∈ g.bindings, ∀ e,
      notifyObserver ctx b event ≠ Except.error e := by
  induction groups generalizing t with
  | nil => intro g hg; cases hg
  | cons g0 gs ih =>
    intro g hg b hb e hcon
    simp only [notifyGroupsOneEventSerial] at h
    cases h1 : notifyBindingsSerial ctx g0.bindings event with
    | error e0 => rw [h1] at h; cases h
    | ok t1 =>
      rw [h1] at h
      cases h2 : notifyGroupsOneEventSerial ctx gs event with
      | error e0 => rw [h2] at h; cases h
      | ok t2 =>
        rcases List.mem_cons.mp hg with rfl | hg'
        · exact notifyBindingsSerial_ok_no_error ctx g.bindings event t1 h1 b hb e hcon
        · exact ih t2 h2 g hg' b hb e hcon

theorem notifyGroupsSerial_ok_no_error (ctx : TestCtx) (events : List String)
    (groups : List LifeCycleObserverGroup) (t : List TraceEv)
    (h : notifyGroupsSerial ctx events groups = Except.ok t) :
    ∀ ev ∈ events, ∀ g ∈ groups, ∀ b ∈ g.bindings, ∀ e,
      notifyObserver ctx b ev ≠ Except.error e := by
  induction events generalizing t with
  | nil => intro ev hev; cases hev
  | cons ev0 evs ih =>
    intro ev hev g hg b hb e hcon
    simp only [notifyGroupsSerial] at h
    cases h1 : notifyGroupsOneEventSerial ctx groups ev0 with
    | error e0 => rw [h1] at h; cases h
    | ok t1 =>
      rw [h1] at h
      cases h2 : notifyGroupsSerial ctx evs groups with
      | error e0 => rw [h2] at h; cases h
      | ok t2 =>
        rcases List.mem_cons.mp hev with rfl | hev'
        · exact notifyGroupsOneEventSerial_ok_no_error ctx groups ev t1 h1 g hg b hb e hcon
        · exact ih t2 h2 ev hev' g hg b hb e hcon

theorem notifyBindingsSerial_append_ok (ctx : TestCtx) (l1 l2 : List Binding)
    (event : String) (t1 t2 : List TraceEv)
    (h1 : notifyBindingsSerial ctx l1 event = Except.ok t1)
    (h2 : notifyBindingsSerial ctx l2 event = Except.ok t2) :
    notifyBindingsSerial ctx (l1 ++ l2) event = Except.ok (t1 ++ t2) := by
  induction l1 generalizing t1 with
  | nil =>
    simp only [notifyBindingsSerial] at h1
    injection h1 with h1
    subst h1
    simpa using h2
  | cons b rest ih =>
    simp only [notifyBindingsSerial] at h1
    cases hb : notifyObserver ctx b event with
    | error e => rw [hb] at h1; cases h1
    | ok tb =>
      rw [hb] at h1
      cases hr : notifyBindingsSerial ctx rest event with
      | error e => rw [hr] at h1; cases h1
      | ok tr =>
        rw [hr] at h1
        injection h1 with h1
        subst h1
        rw [List.cons_append]
        simp only [notifyBindingsSerial]
        rw [hb, ih tr hr]
        simp [List.append_assoc]

/-! ## Helper lemmas: interleavings -/

theorem interleaving_perm {α : Type} {ls : List (List α)} {t : List α}
    (h : Interleaving ls t) : t.Perm ls.flatten := by
  induction h with
  | nil ls hls =>
    have : ls.flatten = [] := by
      rw [List.flatten_eq_nil_iff]
      exact hls
    rw [this]
  | cons pre x l post t _ ih =>
    have hflat : (pre ++ (x :: l) :: post).flatten =
        pre.flatten ++ x :: (l ++ post.flatten) := by
      simp [List.flatten_append]
    rw [hflat]
    have hmid : (pre.flatten ++ x :: (l ++ post.flatten)).Perm
        (x :: (pre.flatten ++ (l ++ post.flatten))) := List.perm_middle
    refine List.Perm.trans ?_ hmid.symm
    have hflat2 : (pre ++ l :: post).flatten =
        pre.flatten ++ (l ++ post.flatten) := by
      simp [List.flatten_append]
    rw [hflat2] at ih
    exact ih.cons x

theorem interleaving_sublist {α : Type} {ls : List (List α)} {t : List α}
    (h : Interleaving ls t) : ∀ l ∈ ls, l.Sublist t := by
  induction h with
  | nil ls hls =>
    intro l hl
    rw [hls l hl]
  | cons pre x l post t hrec ih =>
    intro l' hl'
    rcases List.mem_append.mp hl' with hpre | hcons
    · exact (ih l' (List.mem_append_left _ hpre)).cons x
    · rcases List.mem_cons.mp hcons with rfl | hpost
      · exact (ih l (by simp)).cons₂ x
      · exact (ih l' (by simp [hpost])).cons x

theorem interleaving_eq_nil_of_sources_nil {α : Type} {ls : List (List α)}
    {t : List α} (h : Interleaving ls t) : ls = [] → t = [] := by
  induction h with
  | nil ls hls => intro _; rfl
  | cons pre x l post t hrec ih =>
    intro heq
    exact absurd heq (by simp)

theorem interleaving_nil_left {α : Type} {t : List α}
    (h : Interleaving [] t) : t = [] :=
  interleaving_eq_nil_of_sources_nil h rfl

theorem interleaving_singleton_aux {α : Type} {ls : List (List α)}
    {t : List α} (h : Interleaving ls t) : ∀ l, ls = [l] → t = l := by
  induction h with
  | nil ls hls =>
    intro l hl
    subst hl
    exact (hls l (by simp)).symm
  | cons pre x l0 post t hrec ih =>
    intro l hl
    cases pre with
    | nil =>
      simp only [List.nil_append, List.cons.injEq] at hl
      obtain ⟨hl1, hl2⟩ := hl
      subst hl2
      have ht := ih l0 rfl
      subst ht
      exact hl1
    | cons p ps =>
      simp only [List.cons_append, List.cons.injEq] at hl
      exact absurd hl.2 (by simp)

theorem interleaving_singleton {α : Type} {l t : List α}
    (h : Interleaving [l] t) : t = l :=
  interleaving_singleton_aux h l rfl

theorem interleaving_cons_empty {α : Type} {ls : List (List α)} {t : List α}
    (h : Interleaving ls t) : Interleaving ([] :: ls) t := by
  induction h with
  | nil ls hls =>
    refine Interleaving.nil ([] :: ls) ?_
    intro l hl
    rcases List.mem_cons.mp hl with rfl | hl
    · rfl
    · exact hls l hl
  | cons pre x l post t hrec ih =>
    exact Interleaving.cons ([] :: pre) x l post t ih

theorem interleaving_self_flatten {α : Type} (ls : List (List α)) :
    Interleaving ls ls.flatten := by
  induction ls with
  | nil => exact Interleaving.nil [] (by simp)
  | cons l rest ih =>
    simp only [List.flatten_cons]
    induction l with
    | nil =>
      simpa using interleaving_cons_empty ih
    | cons x xs ihx =>
      exact Interleaving.cons [] x xs rest _ ihx

/-! ## Helper lemmas: the parallel relations -/

theorem notifyGroupPar_ok_inv {ctx : TestCtx} {g : LifeCycleObserverGroup}
    {event : String} {t : List TraceEv}
    (h : NotifyGroupPar ctx g event (Except.ok t)) :
    (∀ b ∈ g.bindings, ∃ s, notifyObserver ctx b event = Except.ok s) ∧
      Interleaving (g.bindings.map fun b => memberSeq ctx b event) t := by
  cases h with
  | ok t hok hil => exact ⟨hok, hil⟩

theorem notifyEventPar_nil_ok_inv {ctx : TestCtx} {event : String}
    {t : List TraceEv} (h : NotifyEventPar ctx event [] (Except.ok t)) :
    t = [] := by
  cases h
  rfl

theorem notifyEventPar_cons_ok_inv {ctx : TestCtx} {event : String}
    {g : LifeCycleObserverGroup} {gs : List LifeCycleObserverGroup}
    {t : List TraceEv}
    (h : NotifyEventPar ctx event (g :: gs) (Except.ok t)) :
    ∃ t1 t2, t = t1 ++ t2 ∧ NotifyGroupPar ctx g event (Except.ok t1) ∧
      NotifyEventPar ctx event gs (Except.ok t2) := by
  cases h with
  | consOk g gs t1 t2 hg hgs => exact ⟨t1, t2, rfl, hg, hgs⟩

theorem notifyGroupsPar_nil_ok_inv {ctx : TestCtx}
    {groups : List LifeCycleObserverGroup} {t : List TraceEv}
    (h : NotifyGroupsPar ctx [] groups (Except.ok t)) : t = [] := by
  cases h
  rfl

theorem notifyGroupsPar_cons_ok_inv {ctx : TestCtx} {ev : String}
    {evs : List String} {groups : List LifeCycleObserverGroup}
    {t : List TraceEv}
    (h : NotifyGroupsPar ctx (ev :: evs) groups (Except.ok t)) :
    ∃ t1 t2, t = t1 ++ t2 ∧ NotifyEventPar ctx ev groups (Except.ok t1) ∧
      NotifyGroupsPar ctx evs groups (Except.ok t2) := by
  cases h with
  | consOk ev evs groups t1 t2 hev hevs => exact ⟨t1, t2, rfl, hev, hevs⟩

theorem notifyEventPar_ok_no_error {ctx : TestCtx} {event : String}
    {groups : List LifeCycleObserverGroup} {t : List TraceEv}
    (h : NotifyEventPar ctx event groups (Except.ok t)) :
    ∀ g ∈ groups, ∀ b ∈ g.bindings, ∀ e,
      notifyObserver ctx b event ≠ Except.error e := by
  induction groups generalizing t with
  | nil => intro g hg; cases hg
  | cons g0 gs ih =>
    rcases notifyEventPar_cons_ok_inv h with ⟨t1, t2, rfl, hg0, hgs⟩
    intro g hg b hb e hcon
    rcases List.mem_cons.mp hg with rfl | hg'
    · rcases (notifyGroupPar_ok_inv hg0).1 b hb with ⟨s, hs⟩
      rw [hs] at hcon
      cases hcon
    · exact ih hgs g hg' b hb e hcon

theorem notifyGroupsPar_ok_no_error {ctx : TestCtx} {events : List String}
    {groups : List LifeCycleObserverGroup} {t : List TraceEv}
    (h : NotifyGroupsPar ctx events groups (Except.ok t)) :
    ∀ ev ∈ events, ∀ g ∈ groups, ∀ b ∈ g.bindings, ∀ e,
      notifyObserver ctx b ev ≠ Except.error e := by
  induction events generalizing t with
  | nil => intro ev hev; cases hev
  | cons ev0 evs ih =>
    rcases notifyGroupsPar_cons_ok_inv h with ⟨t1, t2, rfl, hev0, hevs⟩
    intro ev hev g hg b hb e hcon
    rcases List.mem_cons.mp hev with rfl | hev'
    · exact notifyEventPar_ok_no_error hev0 g hg b hb e hcon
    · exact ih hevs ev hev' g hg b hb e hcon

theorem notifyGroupPar_singleton_det {ctx : TestCtx} {gname : String}
    {b : Binding} {event : String} {t : List TraceEv}
    (h : NotifyGroupPar ctx ⟨gname, [b]⟩ event (Except.ok t)) :
    t = memberSeq ctx b event := by
  rcases notifyGroupPar_ok_inv h with ⟨-, hil⟩
  exact interleaving_singleton (by simpa using hil)

theorem notifyEventPar_singletons_det {ctx : TestCtx} {event : String} :
    ∀ {groups : List LifeCycleObserverGroup} {t : List TraceEv},
      (∀ g ∈ groups, ∃ b, g.bindings = [b]) →
      NotifyEventPar ctx event groups (Except.ok t) →
      t = (groups.map fun g =>
            (g.bindings.map fun b => memberSeq ctx b event).flatten).flatten := by
  intro groups
  induction groups with
  | nil =>
    intro t _ h
    rw [notifyEventPar_nil_ok_inv h]
    rfl
  | cons g gs ih =>
    intro t hsing h
    rcases notifyEventPar_cons_ok_inv h with ⟨t1, t2, rfl, hg, hgs⟩
    rcases hsing g (by simp) with ⟨b, hb⟩
    have h1 : t1 = memberSeq ctx b event := by
      rcases notifyGroupPar_ok_inv hg with ⟨-, hil⟩
      rw [hb] at hil
      exact interleaving_singleton (by simpa using hil)
    have h2 := ih (fun g' hg' => hsing g' (by simp [hg'])) hgs
    subst h1
    subst h2
    simp [hb]

theorem notifyGroupsPar_singletons_det {ctx : TestCtx} :
    ∀ {events : List String} {groups : List LifeCycleObserverGroup}
      {t : List TraceEv},
      (∀ g ∈ groups, ∃ b, g.bindings = [b]) →
      NotifyGroupsPar ctx events groups (Except.ok t) →
      t = (events.map fun ev =>
            (groups.map fun g =>
              (g.bindings.map fun b => memberSeq ctx b ev).flatten).flatten).flatten := by
  intro events
  induction events with
  | nil =>
    intro groups t _ h
    rw [notifyGroupsPar_nil_ok_inv h]
    rfl
  | cons ev evs ih =>
    intro groups t hsing h
    rcases notifyGroupsPar_cons_ok_inv h with ⟨t1, t2, rfl, hev, hevs⟩
    have h1 := notifyEventPar_singletons_det hsing hev
    have h2 := ih hsing hevs
    subst h1
    subst h2
    simp

theorem notifyGroupPar_exists (ctx : TestCtx) (g : LifeCycleObserverGroup)
    (event : String)
    (hok : ∀ b ∈ g.bindings, ∃ s, notifyObserver ctx b event = Except.ok s) :
    NotifyGroupPar ctx g event
      (Except.ok ((g.bindings.map fun b => memberSeq ctx b event).flatten)) :=
  NotifyGroupPar.ok _ hok (interleaving_self_flatten _)

theorem notifyEventPar_exists (ctx : TestCtx) (event : String) :
    ∀ groups : List LifeCycleObserverGroup,
      (∀ g ∈ groups, ∀ b ∈ g.bindings,
        ∃ s, notifyObserver ctx b event = Except.ok s) →
      NotifyEventPar ctx event groups
        (Except.ok ((groups.map fun g =>
          (g.bindings.map fun b => memberSeq ctx b event).flatten).flatten)) := by
  intro groups
  induction groups with
  | nil => intro _; exact NotifyEventPar.nil
  | cons g gs ih =>
    intro hok
    have h1 := notifyGroupPar_exists ctx g event (fun b hb => hok g (by simp) b hb)
    have h2 := ih (fun g' hg' b hb => hok g' (by simp [hg']) b hb)
    simpa using NotifyEventPar.consOk g gs _ _ h1 h2

theorem notifyGroupsPar_exists (ctx : TestCtx) :
    ∀ (events : List String) (groups : List LifeCycleObserverGroup),
      (∀ ev ∈ events, ∀ g ∈ groups, ∀ b ∈ g.bindings,
        ∃ s, notifyObserver ctx b ev = Except.ok s) →
      NotifyGroupsPar ctx events groups
        (Except.ok ((events.map fun ev =>
          (groups.map fun g =>
            (g.bindings.map fun b => memberSeq ctx b ev).flatten).flatten).flatten)) := by
  intro events
  induction events with
  | nil => intro groups _; exact NotifyGroupsPar.nil groups
  | cons ev evs ih =>
    intro groups hok
    have h1 := notifyEventPar_exists ctx ev groups
      (fun g hg b hb => hok ev (by simp) g hg b hb)
    have h2 := ih groups (fun ev' hev' g hg b hb => hok ev' (by simp [hev']) g hg b hb)
    simpa using NotifyGroupsPar.consOk ev evs groups _ _ h1 h2

/-! ## Helper lemmas: phases carried by traces -/

theorem memberSeq_phase (ctx : TestCtx) (b : Binding) (event : String) :
    ∀ e ∈ memberSeq ctx b event, ∀ p, TraceEv.phase e = some p → p = event := by
  unfold memberSeq notifyObserver invokeObserver
  cases hh : (ctx.resolve b.key).hooks event with
  | none =>
    intro e he p hp
    simp only [List.mem_singleton] at he
    subst he
    cases hp
  | some r =>
    cases r with
    | none =>
      intro e he p hp
      rcases List.mem_cons.mp he with rfl | he'
      · cases hp
      · simp only [List.mem_singleton] at he'
        subst he'
        simp only [TraceEv.phase, Option.some.injEq] at hp
        exact hp.symm
    | some err =>
      intro e he
      cases he

theorem notifyGroupPar_ok_phase {ctx : TestCtx} {g : LifeCycleObserverGroup}
    {event : String} {t : List TraceEv}
    (h : NotifyGroupPar ctx g event (Except.ok t)) :
    ∀ e ∈ t, ∀ p, TraceEv.phase e = some p → p = event := by
  rcases notifyGroupPar_ok_inv h with ⟨-, hil⟩
  intro e he p hp
  have hmem := (interleaving_perm hil).mem_iff.mp he
  rcases List.mem_flatten.mp hmem with ⟨l, hl, hel⟩
  rcases List.mem_map.mp hl with ⟨b, hb, rfl⟩
  exact memberSeq_phase ctx b event e hel p hp

theorem notifyEventPar_ok_phase {ctx : TestCtx} {event : String}
    {groups : List LifeCycleObserverGroup} {t : List TraceEv}
    (h : NotifyEventPar ctx event groups (Except.ok t)) :
    ∀ e ∈ t, ∀ p, TraceEv.phase e = some p → p = event := by
  induction groups generalizing t with
  | nil =>
    rw [notifyEventPar_nil_ok_inv h]
    intro e he
    cases he
  | cons g gs ih =>
    rcases notifyEventPar_cons_ok_inv h with ⟨t1, t2, rfl, hg, hgs⟩
    intro e he p hp
    rcases List.mem_append.mp he with h1 | h2
    · exact notifyGroupPar_ok_phase hg e h1 p hp
    · exact ih hgs e h2 p hp

theorem notifyGroupsPar_ok_decomp {ctx : TestCtx} :
    ∀ {events : List String} {groups : List LifeCycleObserverGroup}
      {t : List TraceEv},
      NotifyGroupsPar ctx events groups (Except.ok t) →
      ∃ segs : List (List TraceEv), t = segs.flatten ∧
        segs.length = events.length ∧
        ∀ i (hi : i < segs.length) (hie : i < events.length),
          NotifyEventPar ctx (events.get ⟨i, hie⟩) groups
            (Except.ok (segs.get ⟨i, hi⟩)) := by
  intro events
  induction events with
  | nil =>
    intro groups t h
    refine ⟨[], ?_, rfl, ?_⟩
    · rw [notifyGroupsPar_nil_ok_inv h]; rfl
    · intro i hi
      cases hi
  | cons ev evs ih =>
    intro groups t h
    rcases notifyGroupsPar_cons_ok_inv h with ⟨t1, t2, rfl, hev, hevs⟩
    rcases ih hevs with ⟨segs, rfl, hlen, hsegs⟩
    refine ⟨t1 :: segs, by simp, by simp [hlen], ?_⟩
    intro i hi hie
    cases i with
    | zero => exact hev
    | succ n =>
      exact hsegs n (Nat.lt_of_succ_lt_succ hi) (Nat.lt_of_succ_lt_succ hie)

/-! ## Shared bridging lemmas -/

theorem sortObserverBindingsByGroup_eq (order : List String)
    (bindings : List Binding) :
    sortObserverBindingsByGroup order bindings =
      stableSortByKey (fun g => jsIndexOf order g.group)
        ((buildGroupMap order bindings).map fun e => ⟨e.1, e.2⟩) := rfl

theorem absent_pred_eq (order : List String) (g : LifeCycleObserverGroup) :
    (decide (g.group ∉ order)) = (jsIndexOf order g.group == -1) := by
  by_cases h : g.group ∈ order
  · have hne : jsIndexOf order g.group ≠ -1 := fun hc =>
      (jsIndexOf_eq_neg_one_iff _ _).mp hc h
    simp [h, beq_iff_eq, hne]
  · have heq : jsIndexOf order g.group = -1 :=
      (jsIndexOf_eq_neg_one_iff _ _).mpr h
    simp [h, beq_iff_eq, heq]

theorem countP_key_eq_one {l : List Binding} {b : Binding} (hb : b ∈ l)
    (hnd : (l.map (·.key)).Nodup) :
    l.countP (fun x => x.key == b.key) = 1 := by
  induction l with
  | nil => cases hb
  | cons a rest ih =>
    rw [List.map_cons, List.nodup_cons] at hnd
    have hnd' := hnd
    rw [List.countP_cons]
    rcases List.mem_cons.mp hb with rfl | hb'
    · have hzero : rest.countP (fun x => x.key == b.key) = 0 := by
        rw [List.countP_eq_zero]
        intro x hx
        simp only [beq_iff_eq]
        intro hkey
        exact hnd'.1 (hkey ▸ List.mem_map.mpr ⟨x, hx, rfl⟩)
      simp [hzero]
    · have hne : ¬(a.key = b.key) := by
        intro hkey
        exact hnd'.1 (hkey ▸ List.mem_map.mpr ⟨b, hb', rfl⟩)
      rw [ih hb' hnd'.2]
      simp [hne]

/-! ## Claims -/

/-- C1, counterexample: with the default configured order `["server"]` and a
binding whose explicit group `a` is absent from that order,
`sortObserverBindingsByGroup` places the absent group `a` at index 0, BEFORE
the present group `server` — refuting the claim that groups whose label is
absent from the configured order appear after all groups whose label is
present (JS `indexOf` yields `-1` for absent labels, which sorts first). -/
theorem c1_counterexample :
    (sortObserverBindingsByGroup ["server"]
        [ungroupedBinding, serverBinding]).map (·.group) = ["a", "server"] ∧
      "a" ∉ (["server"] : List String) ∧
      "server" ∈ (["server"] : List String) :=
  ⟨rfl, by decide, by decide⟩

/-- C1 (amended): groups whose label is absent from the configured order
appear BEFORE all groups whose label is present in the order (never after a
present group: if an earlier group is present, every later group is present
too), and ties among absent groups are broken by first-seen order (their
relative order equals the first-seen order of the unsorted group map). -/
theorem c1_absent_groups_first (bindings : List Binding) (order : List String) :
    (∀ i j (hi : i < (sortObserverBindingsByGroup order bindings).length)
        (hj : j < (sortObserverBindingsByGroup order bindings).length),
        i < j →
        ((sortObserverBindingsByGroup order bindings).get ⟨i, hi⟩).group ∈ order →
        ((sortObserverBindingsByGroup order bindings).get ⟨j, hj⟩).group ∈ order) ∧
      (sortObserverBindingsByGroup order bindings).filter
          (fun g => decide (g.group ∉ order)) =
        ((buildGroupMap order bindings).map
            (fun e => (⟨e.1, e.2⟩ : LifeCycleObserverGroup))).filter
          (fun g => decide (g.group ∉ order)) := by
  constructor
  · intro i j hi hj hij hmem
    have hpw : (sortObserverBindingsByGroup order bindings).Pairwise
        (fun a b => jsIndexOf order a.group ≤ jsIndexOf order b.group) := by
      rw [sortObserverBindingsByGroup_eq]
      exact stableSortByKey_pairwise _ _
    have hle := List.pairwise_iff_get.mp hpw ⟨i, hi⟩ ⟨j, hj⟩ (Fin.mk_lt_mk.mpr hij)
    by_contra hnot
    have habs : jsIndexOf order
        (((sortObserverBindingsByGroup order bindings).get ⟨j, hj⟩)).group = -1 :=
      (jsIndexOf_eq_neg_one_iff _ _).mpr hnot
    have hpos := jsIndexOf_nonneg_of_mem hmem
    omega
  · rw [List.filter_congr (fun x _ => absent_pred_eq order x),
      List.filter_congr (fun x _ => absent_pred_eq order x),
      sortObserverBindingsByGroup_eq]
    exact stableSortByKey_filter _ (-1) _

/-- C1, witness: instantiation of the amended theorem at a concrete input
(order `["g1","g2"]`, observers A and B): the group after the present group
`g1` is present in the order. -/
theorem c1_absent_groups_first_witness :
    ((sortObserverBindingsByGroup ["g1", "g2"] [bindingA, bindingB]).get
        ⟨1, by decide⟩).group ∈ (["g1", "g2"] : List String) :=
  (c1_absent_groups_first [bindingA, bindingB] ["g1", "g2"]).1 0 1
    (by decide) (by decide) (by decide) (by decide)

/-- C8: group computation partitions its input — the concatenation of the
computed groups' member lists is a permutation of the input entries (each
entry in exactly one group, counted with multiplicity), each group's member
list preserves the input's first-seen order (it is a sublist of the input),
and the concrete example: for order `[g1, g2]` and entries tagged
`g1, g2, g1`, the result is groups `[g1, g2]` with `g1` holding both
`g1`-tagged entries in original registration order. -/
theorem c8_partition (bindings : List Binding) (order : List String) :
    (((sortObserverBindingsByGroup order bindings).map
        (·.bindings)).flatten).Perm bindings ∧
      (∀ g ∈ sortObserverBindingsByGroup order bindings,
        g.bindings.Sublist bindings) ∧
      sortObserverBindingsByGroup ["g1", "g2"]
          [observerBinding "e1" "g1", observerBinding "e2" "g2",
           observerBinding "e3" "g1"] =
        [⟨"g1", [observerBinding "e1" "g1", observerBinding "e3" "g1"]⟩,
         ⟨"g2", [observerBinding "e2" "g2"]⟩] :=
  ⟨sortObserver_flatten_perm order bindings,
    sortObserver_mem_sublist order bindings, rfl⟩

/-- C8, witness: the sublist part of the partition theorem applied at a
concrete group of a concrete registry. -/
theorem c8_partition_witness :
    (⟨"g1", [bindingA]⟩ : LifeCycleObserverGroup) ∈
        sortObserverBindingsByGroup ["g1", "g2"] [bindingA, bindingB] ∧
      [bindingA].Sublist [bindingA, bindingB] :=
  ⟨by decide,
    (c8_partition [bindingA, bindingB] ["g1", "g2"]).2.1
      ⟨"g1", [bindingA]⟩ (by decide)⟩

/-- C9: group computation is pure and deterministic — it depends only on the
registry's binding list and the configured order (not on the resolver or any
other state; the embedding is a function, so repeated calls with unchanged
inputs are structurally equal), and two contexts with equal binding lists
yield structurally equal group lists. -/
theorem c9_pure_deterministic (ctx1 ctx2 : TestCtx) (order : List String)
    (h : ctx1.bindings = ctx2.bindings) :
    getObserverGroupsByOrder ctx1 order = getObserverGroupsByOrder ctx2 order ∧
      getObserverGroupsByOrder ctx1 order = getObserverGroupsByOrder ctx1 order := by
  refine ⟨?_, rfl⟩
  unfold getObserverGroupsByOrder findObserverBindings
  rw [h]

/-- C9, witness: two registries with the same bindings but different
resolvers produce the same groups. -/
theorem c9_pure_deterministic_witness :
    getObserverGroupsByOrder ctxAB ["g1", "g2"] =
      getObserverGroupsByOrder ctxABAlt ["g1", "g2"] :=
  (c9_pure_deterministic ctxAB ctxABAlt ["g1", "g2"] rfl).1

/-- C3, counterexample: for a registry with a single observer A implementing
all six hooks, one `start()` pass resolves A's instance from the registry
three times (once per phase notification), refuting "resolved at most once
per start pass". -/
theorem c3_counterexample :
    startSerial ctxA ["g1"] = Except.ok
        [TraceEv.resolve "A", TraceEv.hook "A" "preStart",
         TraceEv.resolve "A", TraceEv.hook "A" "start",
         TraceEv.resolve "A", TraceEv.hook "A" "postStart"] ∧
      [TraceEv.resolve "A", TraceEv.hook "A" "preStart",
       TraceEv.resolve "A", TraceEv.hook "A" "start",
       TraceEv.resolve "A", TraceEv.hook "A" "postStart"].count
          (TraceEv.resolve "A") = 3 ∧
      ¬((3 : Nat) ≤ 1) :=
  ⟨rfl, by decide, by decide⟩

/-- C3 (amended): during a `start()` or `stop()` pass each observer entry's
instance is resolved from the registry once per phase notification — three
times per pass, not at most once — and resolution is not memoized across
passes or phases (each notification re-resolves; the count holds separately
for every pass). -/
theorem c3_resolution_per_phase (ctx : TestCtx) (order : List String)
    (t t' : List TraceEv) (b : Binding)
    (hok : startSerial ctx order = Except.ok t)
    (hstop : stopSerial ctx order = Except.ok t')
    (hb : b ∈ findObserverBindings ctx)
    (hnd : ((findObserverBindings ctx).map (·.key)).Nodup) :
    t.count (TraceEv.resolve b.key) = 3 ∧
      t'.count (TraceEv.resolve b.key) = 3 := by
  have hone : (findObserverBindings ctx).countP (fun x => x.key == b.key) = 1 :=
    countP_key_eq_one hb hnd
  have hflat : ((getObserverGroupsByOrder ctx order).map
      (·.bindings)).flatten.Perm (findObserverBindings ctx) :=
    sortObserver_flatten_perm order (findObserverBindings ctx)
  constructor
  · have hcount := notifyGroupsSerial_ok_count ctx startEvents
      (getObserverGroupsByOrder ctx order) t b.key hok
    rw [hcount, List.Perm.countP_eq _ hflat, hone]
    decide
  · have hcount := notifyGroupsSerial_ok_count ctx stopEvents
      ((getObserverGroupsByOrder ctx order).reverse) t' b.key hstop
    have hrev : (((getObserverGroupsByOrder ctx order).reverse).map
        (·.bindings)).flatten.Perm
        (((getObserverGroupsByOrder ctx order)).map (·.bindings)).flatten :=
      ((List.reverse_perm _).map _).flatten
    rw [hcount, List.Perm.countP_eq _ hrev, List.Perm.countP_eq _ hflat, hone]
    decide

/-- C3, witness: the amended count evaluated for observer A of `ctxA`. -/
theorem c3_resolution_per_phase_witness :
    [TraceEv.resolve "A", TraceEv.hook "A" "preStart",
     TraceEv.resolve "A", TraceEv.hook "A" "start",
     TraceEv.resolve "A", TraceEv.hook "A" "postStart"].count
        (TraceEv.resolve "A") = 3 :=
  (c3_resolution_per_phase ctxA ["g1"]
    [TraceEv.resolve "A", TraceEv.hook "A" "preStart",
     TraceEv.resolve "A", TraceEv.hook "A" "start",
     TraceEv.resolve "A", TraceEv.hook "A" "postStart"]
    [TraceEv.resolve "A", TraceEv.hook "A" "preStop",
     TraceEv.resolve "A", TraceEv.hook "A" "stop",
     TraceEv.resolve "A", TraceEv.hook "A" "postStop"]
    bindingA rfl rfl (by decide) (by decide)).1

/-- C6: if any member's hook for one of the pass's phases rejects, the whole
`notifyGroups` run surfaces an error to the caller — in serial mode the
deterministic result is an error, and in parallel mode every related result
is an error; there is no local recovery, no retry and no partial-success
result (`start()`/`stop()` are instances with the start/stop triads and the
computed groups). -/
theorem c6_error_propagation (ctx : TestCtx) (events : List String)
    (groups : List LifeCycleObserverGroup) (g : LifeCycleObserverGroup)
    (b : Binding) (ev e : String)
    (hev : ev ∈ events) (hg : g ∈ groups) (hb : b ∈ g.bindings)
    (herr : notifyObserver ctx b ev = Except.error e) :
    (∃ e', notifyGroupsSerial ctx events groups = Except.error e') ∧
      (∀ r, NotifyGroupsPar ctx events groups r →
        ∃ e', r = Except.error e') := by
  constructor
  · cases hres : notifyGroupsSerial ctx events groups with
    | ok t =>
      exact absurd herr
        (notifyGroupsSerial_ok_no_error ctx events groups t hres ev hev g hg b hb e)
    | error e' => exact ⟨e', rfl⟩
  · intro r hr
    cases r with
    | ok t =>
      exact absurd herr (notifyGroupsPar_ok_no_error hr ev hev g hg b hb e)
    | error e' => exact ⟨e', rfl⟩

/-- C6, witness: the observer of `ctxFail` rejects on `start`, so the serial
start pass over its computed groups errors out. -/
theorem c6_error_propagation_witness :
    ∃ e', notifyGroupsSerial ctxFail startEvents
        (getObserverGroupsByOrder ctxFail ["g1"]) = Except.error e' :=
  (c6_error_propagation ctxFail startEvents
    (getObserverGroupsByOrder ctxFail ["g1"])
    ⟨"g1", [observerBinding "F" "g1"]⟩ (observerBinding "F" "g1")
    "start" "boom" (by decide) (by decide) (by decide) rfl).1

/-- C7: when an observer does not implement the hook of a phase, notifying it
of that phase is a no-op — `invokeObserver` fulfills with no hook invocation
and no error, `notifyObserver` fulfills with only the resolution event, and a
serial group pass containing the observer continues with the members before
and after it. -/
theorem c7_missing_hook_noop (o : Observer) (event : String)
    (h : o.hooks event = none) :
    invokeObserver o event = Except.ok [] ∧
      (∀ ctx b, ctx.resolve b.key = o →
        notifyObserver ctx b event = Except.ok [TraceEv.resolve b.key]) ∧
      (∀ (ctx : TestCtx) (b : Binding) (pre post : List Binding)
          (t1 t2 : List TraceEv), ctx.resolve b.key = o →
        notifyBindingsSerial ctx pre event = Except.ok t1 →
        notifyBindingsSerial ctx post event = Except.ok t2 →
        notifyBindingsSerial ctx (pre ++ b :: post) event =
          Except.ok (t1 ++ TraceEv.resolve b.key :: t2)) := by
  have h1 : invokeObserver o event = Except.ok [] := by
    unfold invokeObserver
    rw [h]
  have h2 : ∀ ctx b, ctx.resolve b.key = o →
      notifyObserver ctx b event = Except.ok [TraceEv.resolve b.key] := by
    intro ctx b hr
    unfold notifyObserver
    rw [hr, h1]
  refine ⟨h1, h2, ?_⟩
  intro ctx b pre post t1 t2 hr hpre hpost
  have hb : notifyBindingsSerial ctx [b] event =
      Except.ok [TraceEv.resolve b.key] := by
    simp only [notifyBindingsSerial]
    rw [h2 ctx b hr]
    rfl
  have hsuffix := notifyBindingsSerial_append_ok ctx [b] post event
    [TraceEv.resolve b.key] t2 hb hpost
  have hall := notifyBindingsSerial_append_ok ctx pre ([b] ++ post) event t1
    (TraceEv.resolve b.key :: t2) hpre (by simpa using hsuffix)
  simpa using hall

/-- C7, witness: an observer implementing only `start`/`stop` is a no-op for
`preStart`. -/
theorem c7_missing_hook_noop_witness :
    invokeObserver (startStopOnlyObserver "S") "preStart" = Except.ok [] :=
  (c7_missing_hook_noop (startStopOnlyObserver "S") "preStart" rfl).1

/-- C10: observer discovery returns exactly the registry bindings that are
constant-valued or singleton-scoped and tagged as a life-cycle observer or
server; consequently every registry resolution performed by a (serial)
`start()` pass is for the key of a discovered binding — a binding of any
other scope (e.g. transient class binding) is never discovered and never
resolved or notified. -/
theorem c10_observer_discovery (ctx : TestCtx) :
    (∀ b, b ∈ findObserverBindings ctx ↔
      b ∈ ctx.bindings ∧
        (b.type = BindingType.constant ∨ b.scope = BindingScope.singleton) ∧
        ((b.tagMap.lookup CoreTagLifeCycleObserver).isSome = true ∨
          truthy (b.tagMap.lookup CoreTagServer) = true)) ∧
      (∀ order t, startSerial ctx order = Except.ok t →
        ∀ k, TraceEv.resolve k ∈ t →
          k ∈ (findObserverBindings ctx).map (·.key)) := by
  constructor
  · intro b
    simp only [findObserverBindings, List.mem_filter, isObserverBinding,
      Bool.and_eq_true, Bool.or_eq_true, decide_eq_true_eq]
  · intro order t hok k hk
    by_contra hnot
    have hcount := notifyGroupsSerial_ok_count ctx startEvents
      (getObserverGroupsByOrder ctx order) t k hok
    have hzero : ((getObserverGroupsByOrder ctx order).map
        (·.bindings)).flatten.countP (fun b => b.key == k) = 0 := by
      rw [List.countP_eq_zero]
      intro b hb
      simp only [beq_iff_eq]
      intro hkey
      have hbmem : b ∈ findObserverBindings ctx :=
        (sortObserver_flatten_perm order (findObserverBindings ctx)).subset hb
      exact hnot (List.mem_map.mpr ⟨b, hbmem, hkey⟩)
    rw [hzero, Nat.mul_zero] at hcount
    have hpos := List.count_pos_iff.mpr hk
    omega

/-- C10, witness: in a registry holding observer A and a transient binding,
every resolution of a serial start pass targets a discovered binding's key
(here A's). -/
theorem c10_observer_discovery_witness :
    "A" ∈ (findObserverBindings ctxC10).map (·.key) :=
  (c10_observer_discovery ctxC10).2 ["g1"]
    [TraceEv.resolve "A", TraceEv.hook "A" "preStart",
     TraceEv.resolve "A", TraceEv.hook "A" "start",
     TraceEv.resolve "A", TraceEv.hook "A" "postStart"] rfl "A" (by decide)

/-! ## Claims about the notification traces -/

theorem notifyObserver_ok_total (ctx : TestCtx) (b : Binding) (ev : String)
    (h : ∀ r, (ctx.resolve b.key).hooks ev ≠ some (some r)) :
    ∃ s, notifyObserver ctx b ev = Except.ok s := by
  unfold notifyObserver invokeObserver
  cases hh : (ctx.resolve b.key).hooks ev with
  | none => exact ⟨_, rfl⟩
  | some r =>
    cases r with
    | none => exact ⟨_, rfl⟩
    | some e => exact absurd hh (h e)

theorem okObserver_no_reject (k ev : String) :
    ∀ r, (okObserver k).hooks ev ≠ some (some r) := by
  intro r h
  unfold okObserver at h
  dsimp only at h
  split at h <;> simp at h

/-- C2: with observers A (group g1) and B (group g2) implementing all six
hooks under order `[g1, g2]` (parallel mode, the default), every possible
`start()` trace followed by every possible `stop()` trace projects to exactly
`preStart-A, preStart-B, start-A, start-B, postStart-A, postStart-B,
preStop-B, preStop-A, stop-B, stop-A, postStop-B, postStop-A`: `stop()`
reverses only the group sequence, not the member order within groups nor the
phase order. -/
theorem c2_stop_reverses_groups_only (tStart tStop : List TraceEv)
    (hstart : StartPar ctxAB ["g1", "g2"] (Except.ok tStart))
    (hstop : StopPar ctxAB ["g1", "g2"] (Except.ok tStop)) :
    hookTrace (tStart ++ tStop) =
      [("preStart", "A"), ("preStart", "B"), ("start", "A"), ("start", "B"),
       ("postStart", "A"), ("postStart", "B"), ("preStop", "B"),
       ("preStop", "A"), ("stop", "B"), ("stop", "A"), ("postStop", "B"),
       ("postStop", "A")] := by
  have hgroups : getObserverGroupsByOrder ctxAB ["g1", "g2"] =
      [⟨"g1", [bindingA]⟩, ⟨"g2", [bindingB]⟩] := rfl
  have hsingS : ∀ g ∈ getObserverGroupsByOrder ctxAB ["g1", "g2"],
      ∃ b, g.bindings = [b] := by
    intro g hg
    rw [hgroups] at hg
    rcases List.mem_cons.mp hg with rfl | hg
    · exact ⟨bindingA, rfl⟩
    · rcases List.mem_cons.mp hg with rfl | hg
      · exact ⟨bindingB, rfl⟩
      · cases hg
  have hsingT : ∀ g ∈ (getObserverGroupsByOrder ctxAB ["g1", "g2"]).reverse,
      ∃ b, g.bindings = [b] := fun g hg => hsingS g (List.mem_reverse.mp hg)
  have hdetS := notifyGroupsPar_singletons_det hsingS hstart
  have hdetT := notifyGroupsPar_singletons_det hsingT hstop
  subst hdetS
  subst hdetT
  rfl

/-- C2, witness: the canonical parallel runs of `start()` and `stop()` over
`ctxAB` produce the claimed twelve-event trace. -/
theorem c2_stop_reverses_groups_only_witness :
    hookTrace (startTraceAB ++ stopTraceAB) =
      [("preStart", "A"), ("preStart", "B"), ("start", "A"), ("start", "B"),
       ("postStart", "A"), ("postStart", "B"), ("preStop", "B"),
       ("preStop", "A"), ("stop", "B"), ("stop", "A"), ("postStop", "B"),
       ("postStop", "A")] := by
  have hok : ∀ ev ∈ startEvents ++ stopEvents, ∀ (b : Binding),
      ∃ s, notifyObserver ctxAB b ev = Except.ok s := fun ev _ b =>
    notifyObserver_ok_total ctxAB b ev (okObserver_no_reject b.key ev)
  have hS : StartPar ctxAB ["g1", "g2"] (Except.ok startTraceAB) :=
    notifyGroupsPar_exists ctxAB startEvents
      (getObserverGroupsByOrder ctxAB ["g1", "g2"])
      (fun ev hev g _ b _ => hok ev (List.mem_append_left _ hev) b)
  have hT : StopPar ctxAB ["g1", "g2"] (Except.ok stopTraceAB) :=
    notifyGroupsPar_exists ctxAB stopEvents
      (getObserverGroupsByOrder ctxAB ["g1", "g2"]).reverse
      (fun ev hev g _ b _ => hok ev (List.mem_append_right _ hev) b)
  exact c2_stop_reverses_groups_only startTraceAB stopTraceAB hS hT

/-- C4: phases are strictly sequenced in parallel mode — every successful
`notifyGroups` trace decomposes into one contiguous segment per event, in the
given event order; segment `i` is a complete pass of ALL groups for event
`i` (a `NotifyEventPar` run), and every hook invocation inside segment `i`
carries phase `i`'s event.  Hence no hook of phase N+1 is invoked before
every group has completed phase N, even with parallel member fan-out.
`start()`/`stop()` are the instances with the start/stop triads and the
computed (resp. reversed) groups. -/
theorem c4_phases_strictly_sequenced (ctx : TestCtx) (events : List String)
    (groups : List LifeCycleObserverGroup) (t : List TraceEv)
    (h : NotifyGroupsPar ctx events groups (Except.ok t)) :
    ∃ segs : List (List TraceEv),
      t = segs.flatten ∧ segs.length = events.length ∧
      (∀ i (hi : i < segs.length) (hie : i < events.length),
        NotifyEventPar ctx (events.get ⟨i, hie⟩) groups
          (Except.ok (segs.get ⟨i, hi⟩))) ∧
      (∀ i (hi : i < segs.length) (hie : i < events.length),
        ∀ e ∈ segs.get ⟨i, hi⟩, ∀ p, TraceEv.phase e = some p →
          p = events.get ⟨i, hie⟩) := by
  rcases notifyGroupsPar_ok_decomp h with ⟨segs, rfl, hlen, hsegs⟩
  exact ⟨segs, rfl, hlen, hsegs,
    fun i hi hie => notifyEventPar_ok_phase (hsegs i hi hie)⟩

/-- C4, witness: the decomposition applied to the canonical parallel start
run of `ctxAB`. -/
theorem c4_phases_strictly_sequenced_witness :
    ∃ segs : List (List TraceEv),
      startTraceAB = segs.flatten ∧ segs.length = startEvents.length ∧
      (∀ i (hi : i < segs.length) (hie : i < startEvents.length),
        NotifyEventPar ctxAB (startEvents.get ⟨i, hie⟩)
          (getObserverGroupsByOrder ctxAB ["g1", "g2"])
          (Except.ok (segs.get ⟨i, hi⟩))) ∧
      (∀ i (hi : i < segs.length) (hie : i < startEvents.length),
        ∀ e ∈ segs.get ⟨i, hi⟩, ∀ p, TraceEv.phase e = some p →
          p = startEvents.get ⟨i, hie⟩) := by
  have hS : NotifyGroupsPar ctxAB startEvents
      (getObserverGroupsByOrder ctxAB ["g1", "g2"])
      (Except.ok startTraceAB) :=
    notifyGroupsPar_exists ctxAB startEvents
      (getObserverGroupsByOrder ctxAB ["g1", "g2"])
      (fun ev _ g _ b _ =>
        notifyObserver_ok_total ctxAB b ev (okObserver_no_reject b.key ev))
  exact c4_phases_strictly_sequenced ctxAB startEvents
    (getObserverGroupsByOrder ctxAB ["g1", "g2"]) startTraceAB hS

/-- C5: in parallel mode, a group's notification for one event is a fan-out
followed by a barrier join — (a) every possible successful group trace is a
permutation of the concatenation of all members' event sequences in which
each member's own sequence appears in order (so every member's invocation
both starts and completes within the group's trace — nothing is dropped,
never fire-and-forget), and (b) every interleaving of the members' sequences
is a possible group trace (members are started without awaiting between
them, so no cross-member ordering is imposed). -/
theorem c5_parallel_fanout_barrier (ctx : TestCtx)
    (g : LifeCycleObserverGroup) (event : String)
    (hok : ∀ b ∈ g.bindings, ∃ s, notifyObserver ctx b event = Except.ok s) :
    (∀ t, NotifyGroupPar ctx g event (Except.ok t) →
      t.Perm ((g.bindings.map fun b => memberSeq ctx b event).flatten) ∧
        ∀ b ∈ g.bindings, (memberSeq ctx b event).Sublist t) ∧
      (∀ t, Interleaving (g.bindings.map fun b => memberSeq ctx b event) t →
        NotifyGroupPar ctx g event (Except.ok t)) := by
  constructor
  · intro t ht
    rcases notifyGroupPar_ok_inv ht with ⟨-, hil⟩
    refine ⟨interleaving_perm hil, ?_⟩
    intro b hb
    exact interleaving_sublist hil _ (List.mem_map.mpr ⟨b, hb, rfl⟩)
  · intro t ht
    exact NotifyGroupPar.ok t hok ht

/-- C5, witness: for the two-member group of `ctxPair`, the interleaved
schedule that starts both members before either completes is a possible
parallel group trace. -/
theorem c5_parallel_fanout_barrier_witness :
    NotifyGroupPar ctxPair ⟨"g1", [bindingA, bindingA2]⟩ "start"
      (Except.ok [TraceEv.resolve "A", TraceEv.resolve "A2",
        TraceEv.hook "A" "start", TraceEv.hook "A2" "start"]) := by
  refine (c5_parallel_fanout_barrier ctxPair ⟨"g1", [bindingA, bindingA2]⟩
    "start" ?_).2 _ ?_
  · intro b _
    exact notifyObserver_ok_total ctxPair b "start"
      (okObserver_no_reject b.key "start")
  · have step4 : Interleaving ([[], []] : List (List TraceEv)) [] :=
      Interleaving.nil _ (by simp)
    have step3 : Interleaving
        ([[], [TraceEv.hook "A2" "start"]] : List (List TraceEv))
        [TraceEv.hook "A2" "start"] :=
      Interleaving.cons [[]] (TraceEv.hook "A2" "start") [] [] [] step4
    have step2 : Interleaving
        ([[TraceEv.hook "A" "start"], [TraceEv.hook "A2" "start"]] :
          List (List TraceEv))
        [TraceEv.hook "A" "start", TraceEv.hook "A2" "start"] :=
      Interleaving.cons [] (TraceEv.hook "A" "start") []
        [[TraceEv.hook "A2" "start"]] [TraceEv.hook "A2" "start"] step3
    have step1 : Interleaving
        ([[TraceEv.hook "A" "start"],
          [TraceEv.resolve "A2", TraceEv.hook "A2" "start"]] :
          List (List TraceEv))
        [TraceEv.resolve "A2", TraceEv.hook "A" "start",
         TraceEv.hook "A2" "start"] :=
      Interleaving.cons [[TraceEv.hook "A" "start"]] (TraceEv.resolve "A2")
        [TraceEv.hook "A2" "start"] []
        [TraceEv.hook "A" "start", TraceEv.hook "A2" "start"] step2
    exact Interleaving.cons [] (TraceEv.resolve "A") [TraceEv.hook "A" "start"]
      [[TraceEv.resolve "A2", TraceEv.hook "A2" "start"]]
      [TraceEv.resolve "A2", TraceEv.hook "A" "start",
       TraceEv.hook "A2" "start"] step1
